import Mathlib

/-!
Shallow embedding of the border-corrected nuclei counter from the
"Counting nuclei in tiles" notebook, and of the `slow_thing` routine from
the "Parallelization" notebook.

An image tile is a 2D array of rational pixel intensities, modelled as a
list of rows.  A label image is a 2D array of natural-number labels
(background = 0, objects = positive integers).

The segmentation backend (`voronoi_otsu_labeling` and the label-editing
operations of the GPU library) is external to the repository; the label
operations are modelled from the specification of the algorithm
(segment, discard low-mean-intensity objects with sequential relabeling,
discard edge-touching objects with sequential relabeling, count by
taking the maximum label), while `count_nuclei` itself follows the
notebook source line by line, parametrised over the segmentation step.
-/

abbrev Img : Type := List (List ℚ)

abbrev LabelImg : Type := List (List ℕ)

/-- Maximum pixel value of a label image; this embeds the `.max()` call the
notebook uses to count labels (0 for an empty image). -/
def labelMax (L : LabelImg) : ℕ := L.flatten.foldr max 0

/-- Set of distinct positive labels occurring in a label image. -/
def labelsIn (L : LabelImg) : Finset ℕ :=
  (L.flatten.filter (fun p => decide (0 < p))).toFinset

/-- Number of distinct positive labels in a label image. -/
def countLabels (L : LabelImg) : ℕ := (labelsIn L).card

/-- Pixel values lying on the outer boundary of the image: first row, last
row, first column and last column. -/
def borderValues (L : LabelImg) : List ℕ :=
  (L.head?.getD []) ++ (L.getLast?.getD []) ++
    L.filterMap List.head? ++ L.filterMap List.getLast?

/-- Labels of a label image surviving a keep-predicate, listed in increasing
order (the order in which sequential relabeling renumbers them). -/
def keptLabels (L : LabelImg) (keep : ℕ → Bool) : List ℕ :=
  (List.range (labelMax L + 1)).filter
    (fun l => decide (0 < l) && decide (l ∈ L.flatten) && keep l)

/-- New value of one pixel under sequential relabeling: survivors are
renumbered 1, 2, ... in increasing order of their old label, discarded
labels become background. -/
def relabelPix (ks : List ℕ) (p : ℕ) : ℕ :=
  if p ∈ ks then ks.indexOf p + 1 else 0

/-- Modelled from the spec: discard the labels failing `keep` (re-label as
background) and renumber the surviving objects sequentially, as the label
exclusion operations of the segmentation library do. -/
def relabel (L : LabelImg) (keep : ℕ → Bool) : LabelImg :=
  L.map (fun row => row.map (relabelPix (keptLabels L keep)))

/-- Mean intensity of the pixels of one label (0 when the label has no
pixels); embeds the per-label value computed by `mean_intensity_map`. -/
def mean_intensity (img : Img) (L : LabelImg) (lab : ℕ) : ℚ :=
  let vals := ((img.flatten.zip L.flatten).filter
    (fun pv => decide (pv.2 = lab))).map Prod.fst
  vals.sum / (vals.length : ℚ)

/-- Modelled from the spec: discard (re-label as background) every object
whose mean intensity falls within the fixed low-value band [0, 20]
(`exclude_labels_with_map_values_within_range` with
`maximum_value_range=20`), renumbering survivors sequentially. -/
def exclude_low_intensity (img : Img) (L : LabelImg) : LabelImg :=
  relabel L (fun lab =>
    !(decide (0 ≤ mean_intensity img L lab) &&
      decide (mean_intensity img L lab ≤ 20)))

/-- Modelled from the spec: discard every object having a pixel on any of
the tile's four edges (`exclude_labels_on_edges`), renumbering survivors
sequentially. -/
def exclude_labels_on_edges (L : LabelImg) : LabelImg :=
  relabel L (fun lab => !(decide (lab ∈ borderValues L)))

/-- High-confidence object set of a tile: segmentation output with the
low-mean-intensity objects discarded. -/
def high_intensity_labels (seg : Img → LabelImg) (img : Img) : LabelImg :=
  exclude_low_intensity img (seg img)

/-- Count A of the notebook: `high_intensity_labels.max()`. -/
def nucleiCountA (seg : Img → LabelImg) (img : Img) : ℕ :=
  labelMax (high_intensity_labels seg img)

/-- Count B of the notebook: `labels_without_borders.max()`. -/
def nucleiCountB (seg : Img → LabelImg) (img : Img) : ℕ :=
  labelMax (exclude_labels_on_edges (high_intensity_labels seg img))

/-- Scalar value of the corrected count: the average of the two counts. -/
def corrected_count (seg : Img → LabelImg) (img : Img) : ℚ :=
  ((nucleiCountA seg img : ℚ) + (nucleiCountB seg img : ℚ)) / 2

/-- Embedding of the notebook's `count_nuclei`: segment the tile, discard
low-mean-intensity labels, take the maximum label as count A, discard
edge-touching labels, take the maximum label as count B, and return the
1×1 array holding the average of the two counts. -/
def count_nuclei (seg : Img → LabelImg) (img : Img) : List (List ℚ) :=
  let labels := seg img
  let high := exclude_low_intensity img labels
  let nuclei_count : ℕ := labelMax high
  let labels_without_borders := exclude_labels_on_edges high
  let nuclei_count_excluding_borders : ℕ := labelMax labels_without_borders
  [[((nuclei_count : ℚ) + (nuclei_count_excluding_borders : ℚ)) / 2]]

unseal Rat.add Rat.mul Rat.inv in
example : count_nuclei (fun _ => [[1, 0], [0, 0]]) [[100, 0], [0, 0]] = [[1/2]] := by decide

unseal Rat.add Rat.mul Rat.inv in
example : count_nuclei (fun _ => [[0, 0, 0], [0, 1, 0], [0, 0, 0]])
    [[0, 0, 0], [0, 100, 0], [0, 0, 0]] = [[1]] := by decide

/-! Lemmas about the sequential-relabeling model: the positive labels of a
relabeled image are exactly 1, ..., k where k is the number of surviving
labels, so both the maximum label and the number of distinct positive
labels equal k. -/

lemma foldr_max_eq_sup (l : List ℕ) : l.foldr max 0 = l.toFinset.sup id := by
  induction l with
  | nil => simp
  | cons a t ih => simp [ih, ← sup_eq_max]

lemma le_labelMax_of_mem {L : LabelImg} {p : ℕ} (hp : p ∈ L.flatten) :
    p ≤ labelMax L := by
  rw [labelMax, foldr_max_eq_sup]
  exact Finset.le_sup (f := id) (List.mem_toFinset.mpr hp)

lemma mem_labelsIn (L : LabelImg) (x : ℕ) :
    x ∈ labelsIn L ↔ 0 < x ∧ x ∈ L.flatten := by
  rw [labelsIn, List.mem_toFinset, List.mem_filter]
  simp [and_comm]

lemma labelMax_eq_sup (L : LabelImg) : labelMax L = (labelsIn L).sup id := by
  rw [labelMax, foldr_max_eq_sup, labelsIn]
  apply le_antisymm
  · apply Finset.sup_le
    intro a ha
    rcases Nat.eq_zero_or_pos a with h0 | hpos
    · subst h0
      exact Nat.zero_le _
    · exact Finset.le_sup (f := id) (List.mem_toFinset.mpr
        (List.mem_filter.mpr ⟨List.mem_toFinset.mp ha, by simp [hpos]⟩))
  · apply Finset.sup_mono
    intro a ha
    rw [List.mem_toFinset] at ha ⊢
    exact (List.mem_filter.mp ha).1

lemma keptLabels_nodup (L : LabelImg) (keep : ℕ → Bool) :
    (keptLabels L keep).Nodup :=
  (List.nodup_range _).filter _

lemma mem_keptLabels (L : LabelImg) (keep : ℕ → Bool) (l : ℕ) :
    l ∈ keptLabels L keep ↔ 0 < l ∧ l ∈ L.flatten ∧ keep l = true := by
  simp only [keptLabels, List.mem_filter, List.mem_range, Bool.and_eq_true,
    decide_eq_true_eq]
  constructor
  · rintro ⟨-, ⟨⟨h1, h2⟩, h3⟩⟩
    exact ⟨h1, h2, h3⟩
  · rintro ⟨h1, h2, h3⟩
    exact ⟨Nat.lt_succ_of_le (le_labelMax_of_mem h2), ⟨⟨h1, h2⟩, h3⟩⟩

lemma flatten_relabel (L : LabelImg) (keep : ℕ → Bool) :
    (relabel L keep).flatten = L.flatten.map (relabelPix (keptLabels L keep)) := by
  rw [relabel, ← List.map_flatten]

lemma labelsIn_relabel (L : LabelImg) (keep : ℕ → Bool) :
    labelsIn (relabel L keep) = Finset.Ioc 0 (keptLabels L keep).length := by
  ext x
  rw [mem_labelsIn, flatten_relabel, Finset.mem_Ioc]
  constructor
  · rintro ⟨hx, hmem⟩
    rcases List.mem_map.mp hmem with ⟨p, hpmem, hpx⟩
    refine ⟨hx, ?_⟩
    rw [relabelPix] at hpx
    by_cases hp : p ∈ keptLabels L keep
    · rw [if_pos hp] at hpx
      have := List.indexOf_lt_length.mpr hp
      omega
    · rw [if_neg hp] at hpx
      omega
  · rintro ⟨hx, hlen⟩
    have hlt : x - 1 < (keptLabels L keep).length := by omega
    have hp : (keptLabels L keep)[x-1] ∈ keptLabels L keep := List.getElem_mem hlt
    have hpflat : (keptLabels L keep)[x-1] ∈ L.flatten :=
      ((mem_keptLabels L keep _).mp hp).2.1
    refine ⟨hx, List.mem_map.mpr ⟨_, hpflat, ?_⟩⟩
    rw [relabelPix, if_pos hp, List.indexOf_getElem (keptLabels_nodup L keep)]
    omega

lemma sup_Ioc_id (n : ℕ) : (Finset.Ioc 0 n).sup id = n := by
  cases n with
  | zero => simp
  | succ m =>
    apply le_antisymm
    · exact Finset.sup_le (fun a ha => (Finset.mem_Ioc.mp ha).2)
    · exact Finset.le_sup (f := id) (Finset.mem_Ioc.mpr ⟨Nat.succ_pos m, le_refl _⟩)

lemma labelMax_relabel (L : LabelImg) (keep : ℕ → Bool) :
    labelMax (relabel L keep) = (keptLabels L keep).length := by
  rw [labelMax_eq_sup, labelsIn_relabel, sup_Ioc_id]

lemma countLabels_relabel (L : LabelImg) (keep : ℕ → Bool) :
    countLabels (relabel L keep) = (keptLabels L keep).length := by
  rw [countLabels, labelsIn_relabel, Nat.card_Ioc, Nat.sub_zero]

lemma toFinset_keptLabels (L : LabelImg) (keep : ℕ → Bool) :
    (keptLabels L keep).toFinset = (labelsIn L).filter (fun l => keep l = true) := by
  ext l
  simp only [List.mem_toFinset, mem_keptLabels, Finset.mem_filter, mem_labelsIn,
    and_assoc]

lemma length_keptLabels (L : LabelImg) (keep : ℕ → Bool) :
    (keptLabels L keep).length =
      ((labelsIn L).filter (fun l => keep l = true)).card := by
  rw [← toFinset_keptLabels, List.toFinset_card_of_nodup (keptLabels_nodup L keep)]

lemma keptLabels_of_flatten_nil (L : LabelImg) (keep : ℕ → Bool)
    (h : L.flatten = []) : keptLabels L keep = [] := by
  rw [List.eq_nil_iff_forall_not_mem]
  intro l hl
  have hmem := ((mem_keptLabels L keep l).mp hl).2.1
  rw [h] at hmem
  exact List.not_mem_nil l hmem

lemma relabelPix_nil (p : ℕ) : relabelPix [] p = 0 := by
  simp [relabelPix]

lemma keptLabels_relabel_of_kept_nil (L : LabelImg) (keep keep2 : ℕ → Bool)
    (h : keptLabels L keep = []) : keptLabels (relabel L keep) keep2 = [] := by
  rw [List.eq_nil_iff_forall_not_mem]
  intro l hl
  obtain ⟨hpos, hmem, -⟩ := (mem_keptLabels _ _ _).mp hl
  rw [flatten_relabel, h] at hmem
  rcases List.mem_map.mp hmem with ⟨p, -, hp⟩
  rw [relabelPix_nil] at hp
  omega

/-! Bridging lemmas: count A and count B of the notebook, obtained by taking
the maximum label, agree with the number of distinct positive labels. -/

lemma count_nuclei_eq (seg : Img → LabelImg) (img : Img) :
    count_nuclei seg img = [[corrected_count seg img]] := rfl

lemma nucleiCountA_eq_countLabels (seg : Img → LabelImg) (img : Img) :
    nucleiCountA seg img = countLabels (high_intensity_labels seg img) := by
  rw [nucleiCountA, high_intensity_labels, exclude_low_intensity,
    labelMax_relabel, countLabels_relabel]

lemma nucleiCountB_eq_countLabels (seg : Img → LabelImg) (img : Img) :
    nucleiCountB seg img =
      countLabels (exclude_labels_on_edges (high_intensity_labels seg img)) := by
  rw [nucleiCountB, exclude_labels_on_edges, labelMax_relabel, countLabels_relabel]

/-- C1: for every tile on which segmentation succeeds, the counter returns
exactly (A + B) / 2, where A is the number of high-confidence objects
(border-touching objects included) and B is the number of objects remaining
after discarding every object touching any of the tile's four edges. -/
theorem count_nuclei_returns_half_sum (seg : Img → LabelImg) (img : Img) :
    count_nuclei seg img =
      [[((countLabels (high_intensity_labels seg img) : ℚ) +
         (countLabels (exclude_labels_on_edges (high_intensity_labels seg img)) : ℚ))
        / 2]] := by
  rw [count_nuclei_eq, corrected_count, nucleiCountA_eq_countLabels,
    nucleiCountB_eq_countLabels]

/-- C2: the quantities A and B the counter feeds into the corrected-count
estimate are exactly the numbers of distinct positive labels of the
high-confidence set and of the edge-excluded set, not some other statistic
of the label images. -/
theorem counts_A_B_are_distinct_label_counts (seg : Img → LabelImg) (img : Img) :
    nucleiCountA seg img = countLabels (high_intensity_labels seg img) ∧
    nucleiCountB seg img =
      countLabels (exclude_labels_on_edges (high_intensity_labels seg img)) :=
  ⟨nucleiCountA_eq_countLabels seg img, nucleiCountB_eq_countLabels seg img⟩

/-- C3: a zero-area tile (for instance a 0×0 chunk handed over by the tiling
driver) makes the counter yield the corrected count 0; the embedding is a
total function, so no exception can be raised.  The hypothesis on `seg`
models, from the spec, that segmenting a tile with no pixels produces a
label image with no pixels. -/
theorem count_nuclei_zero_area (seg : Img → LabelImg) (img : Img)
    (himg : img.flatten = []) (hseg : (seg img).flatten = []) :
    count_nuclei seg img = [[0]] := by
  have hkept : keptLabels (seg img)
      (fun lab => !(decide (0 ≤ mean_intensity img (seg img) lab) &&
        decide (mean_intensity img (seg img) lab ≤ 20))) = [] :=
    keptLabels_of_flatten_nil _ _ hseg
  have hA : nucleiCountA seg img = 0 := by
    rw [nucleiCountA, high_intensity_labels, exclude_low_intensity,
      labelMax_relabel, hkept]
    rfl
  have hB : nucleiCountB seg img = 0 := by
    rw [nucleiCountB, exclude_labels_on_edges, labelMax_relabel,
      high_intensity_labels, exclude_low_intensity,
      keptLabels_relabel_of_kept_nil _ _ _ hkept]
    rfl
  rw [count_nuclei_eq, corrected_count, hA, hB]
  norm_num

/-- Auxiliary: on an all-zero tile every label has mean intensity 0. -/
lemma mean_intensity_zero (img : Img) (L : LabelImg) (lab : ℕ)
    (h : ∀ p ∈ img.flatten, p = 0) : mean_intensity img L lab = 0 := by
  rw [mean_intensity]
  have hz : ∀ v ∈ ((img.flatten.zip L.flatten).filter
      (fun pv => decide (pv.2 = lab))).map Prod.fst, v = 0 := by
    intro v hv
    rcases List.mem_map.mp hv with ⟨pv, hpv, rfl⟩
    have hmem := (List.mem_filter.mp hpv).1
    exact h _ (List.of_mem_zip hmem).1
  rw [List.sum_eq_zero hz, zero_div]

/-- C4: for every all-background tile (every pixel intensity equal to zero),
the corrected count is 0: whatever the segmentation proposes, every object
has mean intensity 0, which lies in the low-value band, so the
high-confidence set is empty. -/
theorem count_nuclei_all_background (seg : Img → LabelImg) (img : Img)
    (h : ∀ p ∈ img.flatten, p = 0) :
    count_nuclei seg img = [[0]] := by
  have hkept : keptLabels (seg img)
      (fun lab => !(decide (0 ≤ mean_intensity img (seg img) lab) &&
        decide (mean_intensity img (seg img) lab ≤ 20))) = [] := by
    rw [List.eq_nil_iff_forall_not_mem]
    intro l hl
    have h3 := ((mem_keptLabels _ _ _).mp hl).2.2
    rw [mean_intensity_zero img (seg img) l h] at h3
    simp at h3
  have hA : nucleiCountA seg img = 0 := by
    rw [nucleiCountA, high_intensity_labels, exclude_low_intensity,
      labelMax_relabel, hkept]
    rfl
  have hB : nucleiCountB seg img = 0 := by
    rw [nucleiCountB, exclude_labels_on_edges, labelMax_relabel,
      high_intensity_labels, exclude_low_intensity,
      keptLabels_relabel_of_kept_nil _ _ _ hkept]
    rfl
  rw [count_nuclei_eq, corrected_count, hA, hB]
  norm_num

/-- Auxiliary: count B as a filtered cardinality over the labels of the
high-confidence set. -/
lemma nucleiCountB_eq_filter_card (seg : Img → LabelImg) (img : Img) :
    nucleiCountB seg img =
      ((labelsIn (high_intensity_labels seg img)).filter
        (fun l =>
          (!(decide (l ∈ borderValues (high_intensity_labels seg img)))) = true)).card := by
  rw [nucleiCountB, exclude_labels_on_edges, labelMax_relabel, length_keptLabels]

/-- C5: for a tile whose high-confidence set consists of exactly one object,
that object touching the tile border, count A is 1, count B is 0, and the
counter returns 0.5. -/
theorem count_nuclei_single_border_object (seg : Img → LabelImg) (img : Img)
    (hone : countLabels (high_intensity_labels seg img) = 1)
    (htouch : ∀ l ∈ labelsIn (high_intensity_labels seg img),
      l ∈ borderValues (high_intensity_labels seg img)) :
    nucleiCountA seg img = 1 ∧ nucleiCountB seg img = 0 ∧
      count_nuclei seg img = [[1/2]] := by
  have hA : nucleiCountA seg img = 1 := by
    rw [nucleiCountA_eq_countLabels, hone]
  have hB : nucleiCountB seg img = 0 := by
    rw [nucleiCountB_eq_filter_card]
    rw [Finset.filter_false_of_mem, Finset.card_empty]
    intro l hl
    simp [htouch l hl]
  refine ⟨hA, hB, ?_⟩
  rw [count_nuclei_eq, corrected_count, hA, hB]
  norm_num

/-- One invocation of the counter against the segmentation backend: the
backend carries a process-wide flag (synchronous kernel execution, toggled
by `set_wait_for_kernel_finish`); the call returns its result together with
the backend state it leaves behind. -/
def count_nuclei_invocation (wait_flag : Bool) (seg : Img → LabelImg)
    (img : Img) : List (List ℚ) × Bool :=
  (count_nuclei seg img, wait_flag)

/-- C6: the counter is deterministic and stateless: two invocations on the
identical tile return the identical output whatever the hidden backend
state, the output is a function of the tile's pixel data alone, and an
invocation does not mutate the backend state. -/
theorem count_nuclei_deterministic_stateless (seg : Img → LabelImg)
    (s1 s2 : Bool) (img img' : Img) (him : img = img') :
    (count_nuclei_invocation s1 seg img).1 = (count_nuclei_invocation s2 seg img').1 ∧
    (count_nuclei_invocation s1 seg img).2 = s1 :=
  ⟨by rw [him]; rfl, rfl⟩

/-- Auxiliary: when no high-confidence object touches the border, count B
equals count A, so the corrected count is the exact object count. -/
lemma corrected_count_of_interior (seg : Img → LabelImg) (img : Img)
    (hint : ∀ l ∈ labelsIn (high_intensity_labels seg img),
      l ∉ borderValues (high_intensity_labels seg img)) :
    corrected_count seg img = (countLabels (high_intensity_labels seg img) : ℚ) := by
  have hB : nucleiCountB seg img = countLabels (high_intensity_labels seg img) := by
    rw [nucleiCountB_eq_filter_card,
      Finset.filter_true_of_mem (fun l hl => by simp [hint l hl])]
    rfl
  rw [corrected_count, nucleiCountA_eq_countLabels, hB]
  ring

/-- C7: on tiles whose high-confidence objects are all interior (no object
touches any of the four edges), the corrected count equals the true number
of disjoint objects, and between two such tiles with n ≤ m objects the
corrected count is non-decreasing. -/
theorem count_nuclei_interior_monotone (seg : Img → LabelImg)
    (img1 img2 : Img) (n m : ℕ)
    (h1 : countLabels (high_intensity_labels seg img1) = n)
    (h1i : ∀ l ∈ labelsIn (high_intensity_labels seg img1),
      l ∉ borderValues (high_intensity_labels seg img1))
    (h2 : countLabels (high_intensity_labels seg img2) = m)
    (h2i : ∀ l ∈ labelsIn (high_intensity_labels seg img2),
      l ∉ borderValues (high_intensity_labels seg img2))
    (hnm : n ≤ m) :
    corrected_count seg img1 = (n : ℚ) ∧
    corrected_count seg img2 = (m : ℚ) ∧
    corrected_count seg img1 ≤ corrected_count seg img2 := by
  have e1 : corrected_count seg img1 = (n : ℚ) := by
    rw [corrected_count_of_interior seg img1 h1i, h1]
  have e2 : corrected_count seg img2 = (m : ℚ) := by
    rw [corrected_count_of_interior seg img2 h2i, h2]
  refine ⟨e1, e2, ?_⟩
  rw [e1, e2]
  exact_mod_cast hnm

/-- C8: on any input tile of non-negative pixel intensities the counter
produces a single scalar — a 1×1 result holding one non-negative value. -/
theorem count_nuclei_scalar_nonneg (seg : Img → LabelImg) (img : Img)
    (hpos : ∀ p ∈ img.flatten, 0 ≤ p) :
    ∃ v : ℚ, count_nuclei seg img = [[v]] ∧ 0 ≤ v := by
  refine ⟨corrected_count seg img, count_nuclei_eq seg img, ?_⟩
  rw [corrected_count]
  apply div_nonneg _ (by norm_num)
  exact add_nonneg (Nat.cast_nonneg _) (Nat.cast_nonneg _)

/-- C9: the corrected count is always an integer multiple of one half: it is
the sum of the two natural-number counts divided by 2. -/
theorem corrected_count_half_integer (seg : Img → LabelImg) (img : Img) :
    ∃ k : ℕ, corrected_count seg img = (k : ℚ) / 2 := by
  refine ⟨nucleiCountA seg img + nucleiCountB seg img, ?_⟩
  rw [corrected_count]
  push_cast
  ring

/-! Embedding of the `slow_thing` routine of the parallelization notebook:
a nested accumulation loop (1000 outer iterations, each doing 100 additions
of x followed by one addition of y) whose total is written into one cell of
the image. -/

/-- Value accumulated by the nested loops of `slow_thing`. -/
def slow_sum (x y : ℕ) : ℕ :=
  (List.range 1000).foldl
    (fun s _ => ((List.range 100).foldl (fun t _ => t + x) s) + y) 0

/-- Embedding of `slow_thing`: run the accumulation loops and store the
total at position (x, y) of the image (no-op when out of bounds, matching
`List.set`). -/
def slow_thing (image : Img) (x y : ℕ) : Img :=
  image.set x ((image.getD x []).set y ((slow_sum x y : ℕ) : ℚ))

lemma foldl_step_const (f : ℕ → ℕ → ℕ) (c : ℕ) (hf : ∀ s i, f s i = s + c) :
    ∀ (n a : ℕ), (List.range n).foldl f a = a + n * c := by
  intro n
  induction n with
  | zero => simp
  | succ m ih =>
    intro a
    rw [List.range_succ, List.foldl_append, ih a]
    simp only [List.foldl_cons, List.foldl_nil, hf]
    ring

lemma slow_sum_eq (x y : ℕ) : slow_sum x y = 100000 * x + 1000 * y := by
  rw [slow_sum, foldl_step_const _ (100 * x + y)
    (fun s i => by rw [foldl_step_const _ x (fun _ _ => rfl)]; omega)]
  ring

lemma getD_set_ne {α : Type} (l : List α) (i j : ℕ) (a d : α) (h : i ≠ j) :
    (l.set i a).getD j d = l.getD j d := by
  rw [List.getD_eq_getElem?_getD, List.getD_eq_getElem?_getD,
    List.getElem?_set_ne h]

lemma getD_set_self {α : Type} (l : List α) (i : ℕ) (a d : α)
    (h : i < l.length) : (l.set i a).getD i d = a := by
  rw [List.getD_eq_getElem?_getD, List.getElem?_set_self h]
  rfl

/-- C10: for in-bounds indices, `slow_thing` writes exactly
100000·x + 1000·y into cell (x, y) and leaves every other cell of the
image unchanged. -/
theorem slow_thing_spec (image : Img) (x y : ℕ)
    (hx : x < image.length) (hy : y < (image.getD x []).length) :
    ((slow_thing image x y).getD x []).getD y 0 =
      100000 * (x : ℚ) + 1000 * (y : ℚ) ∧
    ∀ i j : ℕ, ¬(i = x ∧ j = y) →
      ((slow_thing image x y).getD i []).getD j 0 =
        (image.getD i []).getD j 0 := by
  constructor
  · rw [slow_thing, getD_set_self _ _ _ _ hx, getD_set_self _ _ _ _ hy,
      slow_sum_eq]
    push_cast
    ring
  · intro i j hij
    by_cases hi : i = x
    · subst hi
      have hj : j ≠ y := fun hjy => hij ⟨rfl, hjy⟩
      rw [slow_thing, getD_set_self _ _ _ _ hx, getD_set_ne _ _ _ _ _ (Ne.symm hj)]
    · rw [slow_thing, getD_set_ne _ _ _ _ _ (fun hxi => hi hxi.symm)]

/-! Concrete witnesses instantiating the hypotheses of the theorems above. -/

theorem count_nuclei_zero_area_witness :
    (([] : Img).flatten = ([] : List ℚ)) ∧
    (((fun _ => ([] : LabelImg)) ([] : Img)).flatten = ([] : List ℕ)) ∧
    count_nuclei (fun _ => ([] : LabelImg)) ([] : Img) = [[0]] :=
  ⟨rfl, rfl, count_nuclei_zero_area (fun _ => ([] : LabelImg)) [] rfl rfl⟩

unseal Rat.add Rat.mul Rat.inv in
theorem count_nuclei_all_background_witness :
    (∀ p ∈ ([[0, 0], [0, 0]] : Img).flatten, p = 0) ∧
    count_nuclei (fun _ => [[1, 0], [0, 0]]) [[0, 0], [0, 0]] = [[0]] :=
  ⟨by decide, count_nuclei_all_background (fun _ => [[1, 0], [0, 0]])
    [[0, 0], [0, 0]] (by decide)⟩

unseal Rat.add Rat.mul Rat.inv in
theorem count_nuclei_single_border_object_witness :
    countLabels (high_intensity_labels (fun _ => [[1, 0], [0, 0]])
      [[100, 0], [0, 0]]) = 1 ∧
    (∀ l ∈ labelsIn (high_intensity_labels (fun _ => [[1, 0], [0, 0]])
        [[100, 0], [0, 0]]),
      l ∈ borderValues (high_intensity_labels (fun _ => [[1, 0], [0, 0]])
        [[100, 0], [0, 0]])) ∧
    (nucleiCountA (fun _ => [[1, 0], [0, 0]]) [[100, 0], [0, 0]] = 1 ∧
     nucleiCountB (fun _ => [[1, 0], [0, 0]]) [[100, 0], [0, 0]] = 0 ∧
     count_nuclei (fun _ => [[1, 0], [0, 0]]) [[100, 0], [0, 0]] = [[1/2]]) :=
  ⟨by decide, by decide,
    count_nuclei_single_border_object (fun _ => [[1, 0], [0, 0]])
      [[100, 0], [0, 0]] (by decide) (by decide)⟩

theorem count_nuclei_deterministic_stateless_witness :
    (([[5]] : Img) = [[5]]) ∧
    ((count_nuclei_invocation true (fun _ => [[1]]) [[5]]).1 =
      (count_nuclei_invocation false (fun _ => [[1]]) [[5]]).1 ∧
     (count_nuclei_invocation true (fun _ => [[1]]) [[5]]).2 = true) :=
  ⟨rfl, count_nuclei_deterministic_stateless (fun _ => [[1]]) true false
    [[5]] [[5]] rfl⟩

unseal Rat.add Rat.mul Rat.inv in
theorem count_nuclei_interior_monotone_witness :
    countLabels (high_intensity_labels
      (fun im => im.map (List.map (fun q => if q = 100 then 1 else if q = 200 then 2 else 0)))
      [[0, 0, 0], [0, 100, 0], [0, 0, 0]]) = 1 ∧
    countLabels (high_intensity_labels
      (fun im => im.map (List.map (fun q => if q = 100 then 1 else if q = 200 then 2 else 0)))
      [[0, 0, 0, 0, 0], [0, 100, 0, 200, 0], [0, 0, 0, 0, 0]]) = 2 ∧
    (corrected_count
      (fun im => im.map (List.map (fun q => if q = 100 then 1 else if q = 200 then 2 else 0)))
      [[0, 0, 0], [0, 100, 0], [0, 0, 0]] = ((1 : ℕ) : ℚ) ∧
     corrected_count
      (fun im => im.map (List.map (fun q => if q = 100 then 1 else if q = 200 then 2 else 0)))
      [[0, 0, 0, 0, 0], [0, 100, 0, 200, 0], [0, 0, 0, 0, 0]] = ((2 : ℕ) : ℚ) ∧
     corrected_count
      (fun im => im.map (List.map (fun q => if q = 100 then 1 else if q = 200 then 2 else 0)))
      [[0, 0, 0], [0, 100, 0], [0, 0, 0]] ≤
     corrected_count
      (fun im => im.map (List.map (fun q => if q = 100 then 1 else if q = 200 then 2 else 0)))
      [[0, 0, 0, 0, 0], [0, 100, 0, 200, 0], [0, 0, 0, 0, 0]]) :=
  ⟨by decide, by decide,
    count_nuclei_interior_monotone
      (fun im => im.map (List.map (fun q => if q = 100 then 1 else if q = 200 then 2 else 0)))
      [[0, 0, 0], [0, 100, 0], [0, 0, 0]]
      [[0, 0, 0, 0, 0], [0, 100, 0, 200, 0], [0, 0, 0, 0, 0]] 1 2
      (by decide) (by decide) (by decide) (by decide) (by decide)⟩

theorem count_nuclei_scalar_nonneg_witness :
    (∀ p ∈ ([[100, 0], [0, 0]] : Img).flatten, 0 ≤ p) ∧
    (∃ v : ℚ, count_nuclei (fun _ => [[2, 0], [0, 0]]) [[100, 0], [0, 0]] = [[v]] ∧
      0 ≤ v) :=
  ⟨by decide, count_nuclei_scalar_nonneg (fun _ => [[2, 0], [0, 0]])
    [[100, 0], [0, 0]] (by decide)⟩

theorem slow_thing_spec_witness :
    (0 < ([[0, 0], [0, 0]] : Img).length) ∧
    (1 < (([[0, 0], [0, 0]] : Img).getD 0 []).length) ∧
    (((slow_thing [[0, 0], [0, 0]] 0 1).getD 0 []).getD 1 0 =
        100000 * ((0 : ℕ) : ℚ) + 1000 * ((1 : ℕ) : ℚ) ∧
     ∀ i j : ℕ, ¬(i = 0 ∧ j = 1) →
       ((slow_thing [[0, 0], [0, 0]] 0 1).getD i []).getD j 0 =
         (([[0, 0], [0, 0]] : Img).getD i []).getD j 0) :=
  ⟨by decide, by decide,
    slow_thing_spec [[0, 0], [0, 0]] 0 1 (by decide) (by decide)⟩
